import Mathlib

/-!
# Account Boundary Segmentation Engine — verification development

Shallow embedding of the segmentation core of the IDP repository:

* `src/pdfBreaker.py` — page signal extractor (`find_account_numbers`, form
  based primary step), segmentation fold (`__main__` loop) and the range
  encoder `_range_str`;
* `src/pdfBreaker2.py` — alternate fixed-marker extractor
  (`extract_account_number`);
* `src/pipeline.py` / `src/uploadToS3.py` — `parse_range` (identical in both
  files).

Python strings are modelled as `List Char`; page indices as `Nat`.  Decimal
formatting of an integer (Python `str(n)` / f-string interpolation of an int)
is modelled by `natDigits`, and Python `int(s)` on non-negative all-digit
strings by `pyInt` (returning `none` where `int` would raise).
-/

/-! ## Definitions -/

/-- Decimal digit character for `d < 10` (Python formatting of one digit). -/
def digitChar (d : Nat) : Char := Char.ofNat (48 + d)

/-- `'0' ≤ c ≤ '9'`. -/
def isDigitChar (c : Char) : Bool := '0' ≤ c && c ≤ '9'

/-- Numeric value of a digit character. -/
def digitVal (c : Char) : Nat := c.toNat - 48

/-- Fuel-driven decimal printer; `natDigitsGo f n` is correct once `n < f`. -/
def natDigitsGo : Nat → Nat → List Char
  | 0, _ => []
  | fuel + 1, n =>
    if n < 10 then [digitChar n]
    else natDigitsGo fuel (n / 10) ++ [digitChar (n % 10)]

/-- Decimal representation of `n`, most significant digit first: the model of
Python `str(n)` for a natural number `n`. -/
def natDigits (n : Nat) : List Char := natDigitsGo (n + 1) n

/-- Model of Python `int(s)` restricted to the non-negative, all-digit case;
`none` models the `ValueError` raised on any other input. -/
def pyInt (s : List Char) : Option Nat :=
  if (!s.isEmpty) && s.all isDigitChar then
    some (s.foldl (fun a c => a * 10 + digitVal c) 0)
  else none

/-- Model of Python `rng.split("-")`: splits a string at every `'-'`,
keeping empty chunks, and returns `[""]` on the empty string. -/
def splitOnDash : List Char → List (List Char)
  | [] => [[]]
  | c :: rest =>
    match splitOnDash rest with
    | [] => [[c]]
    | h :: t => if c = '-' then [] :: h :: t else (c :: h) :: t

/-- Embedding of `parse_range` (`src/pipeline.py` lines 44–51 and
`src/uploadToS3.py` lines 26–37, identical bodies):

```
if not rng: return []
parts = rng.split("-")
if len(parts) == 1: return [int(parts[0])]
return list(range(int(parts[0]), int(parts[1]) + 1))
```

`list(range(a, b + 1))` is `List.range' a (b + 1 - a)` (empty when `b < a`).
`none` models a raised `ValueError`. -/
def parse_range (rng : List Char) : Option (List Nat) :=
  if rng.isEmpty then some []
  else
    match splitOnDash rng with
    | [p] => (pyInt p).map (fun n => [n])
    | p :: q :: _ =>
      match pyInt p, pyInt q with
      | some a, some b => some (List.range' a (b + 1 - a))
      | _, _ => none
    | [] => none

/-- Model of Python `min(pages)` on a non-empty list (`0` on `[]`, a branch
the caller guards against, mirroring the `ValueError`-free path). -/
def pyMin (l : List Nat) : Nat :=
  match l with
  | [] => 0
  | h :: t => t.foldl Nat.min h

/-- Model of Python `max(pages)` on a non-empty list. -/
def pyMax (l : List Nat) : Nat :=
  match l with
  | [] => 0
  | h :: t => t.foldl Nat.max h

/-- Embedding of `_range_str` (`src/pdfBreaker.py` lines 103–107):

```
if not pages: return ""
return f"{min(pages)}-{max(pages)}" if len(pages) > 1 else str(pages[0])
``` -/
def _range_str (pages : List Nat) : List Char :=
  if pages.isEmpty then []
  else if 1 < pages.length then
    natDigits (pyMin pages) ++ '-' :: natDigits (pyMax pages)
  else natDigits (pages.headD 0)

/-- The interval `[min l, …, max l]` spanned by a non-empty ascending list,
`[]` for `[]`; the list a consumer reconstructs from the range descriptor. -/
def fillRange (l : List Nat) : List Nat :=
  match l with
  | [] => []
  | _ :: _ => List.range' (l.headD 0) (l.getLastD 0 + 1 - l.headD 0)

/-- Python `d[k] = v`: updates the value in place if the key is present
(keeping its original insertion position), otherwise appends. -/
def dictSet {V : Type} : List (List Char × V) → List Char → V → List (List Char × V)
  | [], k, v => [(k, v)]
  | (k', v') :: rest, k, v =>
    if k' = k then (k, v) :: rest else (k', v') :: dictSet rest k v

/-- Python `accounts_on_page == {current_acct}`: the candidate set equals
the one-element set holding the current account.  When `current_acct` is
`None` this is always false (a set of strings never equals `{None}`). -/
def setEqCur (C : List (List Char)) : Option (List Char) → Bool
  | none => false
  | some a => (!C.isEmpty) && C.all (fun x => x = a)

/-- Fold state of the `__main__` loop: `out`, `current_acct`,
`extraction_pages`, `attachment_pages`, plus the page indices the loop
reports as skipped (the Rule-D diagnostic print on line 143). -/
structure SegSt where
  out : List (List Char × (List Char × List Char))
  current : Option (List Char)
  extraction_pages : List Nat
  attachment_pages : List Nat
  dropped : List Nat

/-- The flush of the current account into `out`
(lines 123–127, identically lines 146–150). -/
def flushEntry (st : SegSt) : List (List Char × (List Char × List Char)) :=
  match st.current with
  | none => st.out
  | some a =>
    dictSet st.out a (_range_str st.extraction_pages, _range_str st.attachment_pages)

/-- One iteration of the fold loop (lines 120–143) on page `idx` with
candidate list `C` (the candidate set in iteration order). -/
def segStep (st : SegSt) (idx : Nat) (C : List (List Char)) : SegSt :=
  if (!C.isEmpty) && !(setEqCur C st.current) then
    { out := flushEntry st
      current := some (C.headD [])
      extraction_pages := [idx]
      attachment_pages := []
      dropped := st.dropped }
  else if st.current.isSome then
    if !C.isEmpty then { st with extraction_pages := st.extraction_pages ++ [idx] }
    else { st with attachment_pages := st.attachment_pages ++ [idx] }
  else { st with dropped := st.dropped ++ [idx] }

/-- The fold loop over the remaining pages, starting at 1-based index `idx`. -/
def segRun : SegSt → Nat → List (List (List Char)) → SegSt
  | st, _, [] => st
  | st, idx, C :: rest => segRun (segStep st idx C) (idx + 1) rest

/-- Initial state (lines 111–114). -/
def initSt : SegSt := ⟨[], none, [], [], []⟩

/-- The final printed result `out` for a document given as the per-page
candidate lists (loop plus final flush, lines 116–150). -/
def segResult (cands : List (List (List Char))) :
    List (List Char × (List Char × List Char)) :=
  flushEntry (segRun initSt 1 cands)

/-- The page indices reported by the Rule-D "no account number found"
diagnostic. -/
def segDropped (cands : List (List (List Char))) : List Nat :=
  (segRun initSt 1 cands).dropped

/-- Instrumented fold state. -/
structure SegStL where
  out : List (List Char × (List Nat × List Nat))
  flushes : List (List Char × (List Nat × List Nat))
  current : Option (List Char)
  extraction_pages : List Nat
  attachment_pages : List Nat
  dropped : List Nat

/-- Instrumented flush: records the event in the journal as well. -/
def flushL (st : SegStL) : SegStL :=
  match st.current with
  | none => st
  | some a =>
    { st with
      out := dictSet st.out a (st.extraction_pages, st.attachment_pages)
      flushes := st.flushes ++ [(a, (st.extraction_pages, st.attachment_pages))] }

/-- Instrumented loop iteration. -/
def segStepL (st : SegStL) (idx : Nat) (C : List (List Char)) : SegStL :=
  if (!C.isEmpty) && !(setEqCur C st.current) then
    { flushL st with
      current := some (C.headD [])
      extraction_pages := [idx]
      attachment_pages := [] }
  else if st.current.isSome then
    if !C.isEmpty then { st with extraction_pages := st.extraction_pages ++ [idx] }
    else { st with attachment_pages := st.attachment_pages ++ [idx] }
  else { st with dropped := st.dropped ++ [idx] }

/-- Instrumented loop. -/
def segRunL : SegStL → Nat → List (List (List Char)) → SegStL
  | st, _, [] => st
  | st, idx, C :: rest => segRunL (segStepL st idx C) (idx + 1) rest

/-- Instrumented initial state. -/
def initL : SegStL := ⟨[], [], none, [], [], []⟩

/-- Instrumented state after the loop and the final flush. -/
def segFinalL (cands : List (List (List Char))) : SegStL :=
  flushL (segRunL initL 1 cands)

/-- Instrumented final result: `out` with raw page-index lists. -/
def segResultL (cands : List (List (List Char))) :
    List (List Char × (List Nat × List Nat)) :=
  (segFinalL cands).out

/-- Encode an instrumented `out` with the Range Encoder, valuewise. -/
def encodeVals (l : List (List Char × (List Nat × List Nat))) :
    List (List Char × (List Char × List Char)) :=
  l.map (fun e => (e.1, (_range_str e.2.1, _range_str e.2.2)))

/-- Projection of an instrumented state onto a faithful state. -/
def absL (st : SegStL) : SegSt :=
  ⟨encodeVals st.out, st.current, st.extraction_pages, st.attachment_pages, st.dropped⟩

/-- All page indices stored in an instrumented `out` or journal. -/
def pagesOf (l : List (List Char × (List Nat × List Nat))) : List Nat :=
  (l.map (fun e => e.2.1 ++ e.2.2)).flatten

/-- Replaying a journal of flush events through `dict` assignment. -/
def applyFlushes (evs : List (List Char × (List Nat × List Nat))) :
    List (List Char × (List Nat × List Nat)) :=
  evs.foldl (fun d e => dictSet d e.1 e.2) []

/-- Every page index accounted for by an instrumented state: journalled
flushes, pending accumulators, and dropped pages. -/
def statePages (st : SegStL) : List Nat :=
  pagesOf st.flushes ++ st.extraction_pages ++ st.attachment_pages ++ st.dropped

/-- Reachable-state invariant: with no current account the accumulators are
empty. -/
def goodSt (st : SegStL) : Prop :=
  st.current = none → st.extraction_pages = [] ∧ st.attachment_pages = []

-- Scenario A of the spec, §8: candidates [{}, {123}, {123}, {}, {}, {456}, {}].
def scenarioA : List (List (List Char)) :=
  [[], ["123".toList], ["123".toList], [], [], ["456".toList], []]

-- Resurfacing account number: {123}, {456}, {123}.
def resurfacing : List (List (List Char)) :=
  [["123".toList], ["456".toList], ["123".toList]]

/-- Python string comparison `a < b`: lexicographic on code points. -/
def strLt : List Char → List Char → Bool
  | [], [] => false
  | [], _ :: _ => true
  | _ :: _, [] => false
  | a :: as, b :: bs => if a = b then strLt as bs else decide (a < b)

-- Two iteration orders of the same two-element candidate set {"111","222"}.
def mixedOrderA : List (List Char) := ["111".toList, "222".toList]

def mixedOrderB : List (List Char) := ["222".toList, "111".toList]

/-- The fold loop over per-page outcomes; an uncaught exception on a page
aborts everything after (and including) it. -/
def segRunExc : SegSt → Nat → List (Option (List (List Char))) → Except Nat SegSt
  | st, _, [] => Except.ok st
  | _, idx, none :: _ => Except.error idx
  | st, idx, some C :: rest => segRunExc (segStep st idx C) (idx + 1) rest

/-- What the caller receives: the printed result on success, or the bare
exception (no partial result, no tail marker) on failure. -/
def segResultExc (pages : List (Option (List (List Char)))) :
    Except Nat (List (List Char × (List Char × List Char))) :=
  (segRunExc initSt 1 pages).map flushEntry

-- Scenario C of the spec, §8: 6 pages, account established on pages 1–3,
-- signal extraction raises on page 4.
def scenarioC : List (Option (List (List Char))) :=
  [some ["999888777".toList], some ["999888777".toList], some [],
   none, some [], some []]

/-- ASCII model of Python `str.lower` (all inputs of interest are ASCII). -/
def pyToLower (c : Char) : Char :=
  if 'A' ≤ c ∧ c ≤ 'Z' then Char.ofNat (c.toNat + 32) else c

/-- Embedding of `_normalise_key` (lines 10–12):
`re.sub(r"[^a-z0-9]", "", text.lower())` — lowercase, then delete every
character outside `[a-z0-9]`. -/
def _normalise_key (s : List Char) : List Char :=
  (s.map pyToLower).filter
    (fun c => ('a' ≤ c && c ≤ 'z') || ('0' ≤ c && c ≤ '9'))

/-- Embedding of `ACCOUNT_LABELS` (lines 6–8), exactly as written in the
source — each label contains a space. -/
def ACCOUNT_LABELS : List (List Char) :=
  ["account number".toList, "account no".toList, "account #".toList,
   "acct number".toList, "acct no".toList, "acct #".toList]

/-- `needle` is a leading segment of `hay`. -/
def leadsWith : List Char → List Char → Bool
  | [], _ => true
  | _ :: _, [] => false
  | a :: as, b :: bs => a = b && leadsWith as bs

/-- Python substring test `needle in hay`. -/
def containsSub : List Char → List Char → Bool
  | [], needle => leadsWith needle []
  | c :: t, needle => leadsWith needle (c :: t) || containsSub t needle

/-- `re.sub(r"\D", "", v)`: keep only digits. -/
def stripNonDigits (v : List Char) : List Char := v.filter isDigitChar

/-- Python `set.add` on a set modelled as its insertion-ordered elements. -/
def setAdd (s : List (List Char)) (x : List Char) : List (List Char) :=
  if s.contains x then s else s ++ [x]

/-- Embedding of the form-based primary step of `find_account_numbers`
(lines 51–57): the loop over the kv map built by `_get_kv_map`, whose keys
were already normalised with `_normalise_key` at insertion:

```
for k, v in kv.items():
    if any(label in k for label in ACCOUNT_LABELS):
        digits = re.sub(r"\D", "", v)
        if 6 <= len(digits) <= 20:
            accounts.add(digits)
``` -/
def find_account_numbers_forms (kv : List (List Char × List Char)) :
    List (List Char) :=
  kv.foldl (fun accounts e =>
    if ACCOUNT_LABELS.any (fun label => containsSub e.1 label) then
      let digits := stripNonDigits e.2
      if 6 ≤ digits.length && digits.length ≤ 20 then setAdd accounts digits
      else accounts
    else accounts) []

/-- Python whitespace for `str.strip()` (the ASCII whitespace characters). -/
def isPySpace (c : Char) : Bool :=
  c = ' ' || c = '\t' || c = '\n' || c = '\r' || c = '\x0b' || c = '\x0c'

/-- Python `s.strip()`. -/
def pyStrip (s : List Char) : List Char :=
  ((s.dropWhile isPySpace).reverse.dropWhile isPySpace).reverse

/-- Python `s.rstrip(":")`: remove every trailing colon. -/
def pyRstripColon (s : List Char) : List Char :=
  (s.reverse.dropWhile (fun c => c = ':')).reverse

/-- Python `text.splitlines()`, modelled for `'\n'`-separated text: no
trailing empty line after a final newline, and `[]` on the empty string. -/
def pySplitlines : List Char → List (List Char)
  | [] => []
  | c :: rest =>
    if c = '\n' then [] :: pySplitlines rest
    else
      match pySplitlines rest with
      | [] => [[c]]
      | h :: t => (c :: h) :: t

/-- The marker line `"ACCOUNT NUMBER"`. -/
def markerLine : List Char := "ACCOUNT NUMBER".toList

/-- `lines = [ln.strip() for ln in text.splitlines()]` (line 41). -/
def markedLines (text : List Char) : List (List Char) :=
  (pySplitlines text).map pyStrip

/-- The loop of lines 42–45: return the stripped line following the first
stripped line that, with trailing colons removed, equals the marker and has
a following line; `none` otherwise. -/
def findAfterMarker : List (List Char) → Option (List Char)
  | l :: nxt :: rest =>
    if pyRstripColon l = markerLine then some (pyStrip nxt)
    else findAfterMarker (nxt :: rest)
  | _ => none

/-- Embedding of `extract_account_number` (lines 36–45). -/
def extract_account_number (text : List Char) : Option (List Char) :=
  findAfterMarker (markedLines text)

/-- Line `i` (after per-line stripping) is a usable marker: it rstrips to
`"ACCOUNT NUMBER"` and a following line exists. -/
def isMarkerAt (lines : List (List Char)) (i : Nat) : Prop :=
  i + 1 < lines.length ∧ pyRstripColon (lines.getD i []) = markerLine

instance isMarkerAt_decidable (lines : List (List Char)) (i : Nat) :
    Decidable (isMarkerAt lines i) :=
  inferInstanceAs
    (Decidable (i + 1 < lines.length ∧ pyRstripColon (lines.getD i []) = markerLine))

-- A concrete page in the pdfBreaker2 document convention.
def markerSample : List Char :=
  "Customer Name\nACCOUNT NUMBER:\n 210863254 \nAmount Due".toList

/-! ## Theorems -/

-- Sanity checks on concrete values.
example : natDigits 0 = ['0'] := by decide

example : natDigits 305 = ['3', '0', '5'] := by decide

example : parse_range ("3-5".toList) = some [3, 4, 5] := by decide

example : parse_range [] = some [] := by decide

example : _range_str [3, 4, 5] = "3-5".toList := by decide

example : _range_str [6] = "6".toList := by decide

example : fillRange [2, 9] = [2, 3, 4, 5, 6, 7, 8, 9] := by decide

theorem natDigitsGo_congr :
    ∀ (f g n : Nat), n < f → n < g → natDigitsGo f n = natDigitsGo g n := by
  intro f
  induction f with
  | zero => intro g n hf; omega
  | succ f ih =>
    intro g n hf hg
    cases g with
    | zero => omega
    | succ g =>
      show natDigitsGo (f + 1) n = natDigitsGo (g + 1) n
      by_cases h10 : n < 10
      · simp [natDigitsGo, h10]
      · have hdiv : n / 10 < n := Nat.div_lt_self (by omega) (by omega)
        simp only [natDigitsGo, h10, if_false]
        rw [ih g (n / 10) (by omega) (by omega)]

theorem natDigits_of_lt {n : Nat} (h : n < 10) : natDigits n = [digitChar n] := by
  simp [natDigits, natDigitsGo, h]

theorem natDigits_of_ge {n : Nat} (h : 10 ≤ n) :
    natDigits n = natDigits (n / 10) ++ [digitChar (n % 10)] := by
  have hdiv : n / 10 < n := Nat.div_lt_self (by omega) (by omega)
  show natDigitsGo (n + 1) n = _
  simp only [natDigitsGo, Nat.not_lt.mpr h, if_false]
  rw [natDigitsGo_congr n (n / 10 + 1) (n / 10) (by omega) (by omega)]
  rfl

theorem digitVal_digitChar {d : Nat} (h : d < 10) : digitVal (digitChar d) = d := by
  interval_cases d <;> rfl

theorem isDigitChar_digitChar {d : Nat} (h : d < 10) : isDigitChar (digitChar d) = true := by
  interval_cases d <;> rfl

theorem natDigits_ne_nil (n : Nat) : natDigits n ≠ [] := by
  by_cases h : n < 10
  · rw [natDigits_of_lt h]; simp
  · rw [natDigits_of_ge (by omega)]; simp

theorem natDigits_all_digit (n : Nat) : ∀ c ∈ natDigits n, isDigitChar c = true := by
  induction n using Nat.strong_induction_on with
  | _ n ih =>
    by_cases h : n < 10
    · rw [natDigits_of_lt h]
      intro c hc
      rw [List.mem_singleton] at hc
      subst hc
      exact isDigitChar_digitChar h
    · rw [natDigits_of_ge (by omega)]
      intro c hc
      rcases List.mem_append.mp hc with hc | hc
      · exact ih (n / 10) (Nat.div_lt_self (by omega) (by omega)) c hc
      · rw [List.mem_singleton] at hc
        subst hc
        exact isDigitChar_digitChar (Nat.mod_lt _ (by omega))

theorem natDigits_no_dash (n : Nat) : ∀ c ∈ natDigits n, c ≠ '-' := by
  intro c hc heq
  have := natDigits_all_digit n c hc
  subst heq
  simp [isDigitChar] at this

theorem foldl_digits_natDigits (n : Nat) :
    (natDigits n).foldl (fun a c => a * 10 + digitVal c) 0 = n := by
  induction n using Nat.strong_induction_on with
  | _ n ih =>
    by_cases h : n < 10
    · rw [natDigits_of_lt h]
      simp [digitVal_digitChar h]
    · rw [natDigits_of_ge (by omega), List.foldl_append]
      rw [ih (n / 10) (Nat.div_lt_self (by omega) (by omega))]
      simp [digitVal_digitChar (Nat.mod_lt n (by omega))]
      omega

theorem pyInt_natDigits (n : Nat) : pyInt (natDigits n) = some n := by
  have hne : (natDigits n).isEmpty = false := by
    cases hn : natDigits n with
    | nil => exact absurd hn (natDigits_ne_nil n)
    | cons a t => rfl
  have hall : (natDigits n).all isDigitChar = true :=
    List.all_eq_true.mpr (natDigits_all_digit n)
  simp [pyInt, hne, hall, foldl_digits_natDigits]

theorem splitOnDash_ne_nil (l : List Char) : splitOnDash l ≠ [] := by
  cases l with
  | nil => simp [splitOnDash]
  | cons c rest =>
    simp only [splitOnDash]
    cases splitOnDash rest with
    | nil => simp
    | cons h t =>
      by_cases hc : c = '-' <;> simp [hc]

theorem splitOnDash_no_dash (l : List Char) (h : ∀ c ∈ l, c ≠ '-') :
    splitOnDash l = [l] := by
  induction l with
  | nil => rfl
  | cons c rest ih =>
    have hrest : splitOnDash rest = [rest] := ih (fun x hx => h x (List.mem_cons_of_mem c hx))
    have hc : c ≠ '-' := h c (List.mem_cons_self c rest)
    simp [splitOnDash, hrest, hc]

theorem splitOnDash_append (a b : List Char) (h : ∀ c ∈ a, c ≠ '-') :
    splitOnDash (a ++ '-' :: b) = a :: splitOnDash b := by
  induction a with
  | nil =>
    simp only [List.nil_append, splitOnDash]
    cases hb : splitOnDash b with
    | nil => exact absurd hb (splitOnDash_ne_nil b)
    | cons x t => simp
  | cons c a' ih =>
    have h' : ∀ x ∈ a', x ≠ '-' := fun x hx => h x (List.mem_cons_of_mem c hx)
    have hc : c ≠ '-' := h c (List.mem_cons_self c a')
    simp only [List.cons_append, splitOnDash]
    have key : splitOnDash (List.append a' ('-' :: b)) = a' :: splitOnDash b := ih h'
    rw [key]
    simp [hc]

theorem chain'_lt_head_lt {a : Nat} {t : List Nat}
    (h : List.Chain' (· < ·) (a :: t)) : ∀ x ∈ t, a < x := by
  have hp := List.chain'_iff_pairwise.mp h
  exact (List.pairwise_cons.mp hp).1

theorem foldl_min_of_le : ∀ (t : List Nat) (a : Nat), (∀ x ∈ t, a ≤ x) →
    t.foldl Nat.min a = a := by
  intro t
  induction t with
  | nil => intro a _; rfl
  | cons b t' ih =>
    intro a h
    have hab : a ≤ b := h b (List.mem_cons_self b t')
    show t'.foldl Nat.min (Nat.min a b) = a
    rw [show Nat.min a b = a from if_pos hab]
    exact ih a (fun x hx => h x (List.mem_cons_of_mem b hx))

theorem pyMin_sorted {a : Nat} {t : List Nat} (h : List.Chain' (· < ·) (a :: t)) :
    pyMin (a :: t) = a :=
  foldl_min_of_le t a (fun x hx => Nat.le_of_lt (chain'_lt_head_lt h x hx))

theorem foldl_max_sorted : ∀ (t : List Nat) (a : Nat), List.Chain' (· < ·) (a :: t) →
    t.foldl Nat.max a = (a :: t).getLastD 0 := by
  intro t
  induction t with
  | nil => intro a _; rfl
  | cons b t' ih =>
    intro a h
    have hab : a < b := (List.chain'_cons.mp h).1
    have htl : List.Chain' (· < ·) (b :: t') := (List.chain'_cons.mp h).2
    show t'.foldl Nat.max (Nat.max a b) = (a :: b :: t').getLastD 0
    rw [show Nat.max a b = b by
      show (if a ≤ b then b else a) = b
      rw [if_pos (Nat.le_of_lt hab)]]
    exact ih b htl

theorem pyMax_sorted {a : Nat} {t : List Nat} (h : List.Chain' (· < ·) (a :: t)) :
    pyMax (a :: t) = (a :: t).getLastD 0 :=
  foldl_max_sorted t a h

theorem head_le_getLastD : ∀ (t : List Nat) (a : Nat), List.Chain' (· < ·) (a :: t) →
    a ≤ (a :: t).getLastD 0 := by
  intro t
  induction t with
  | nil => intro a _; exact Nat.le_refl a
  | cons b t' ih =>
    intro a h
    have hab : a < b := (List.chain'_cons.mp h).1
    have := ih b (List.chain'_cons.mp h).2
    show a ≤ (b :: t').getLastD a
    calc a ≤ (b :: t').getLastD 0 := by omega
    _ = (b :: t').getLastD a := rfl

theorem parse_range_natDigits (n : Nat) : parse_range (natDigits n) = some [n] := by
  have hne : (natDigits n).isEmpty = false := by
    cases hn : natDigits n with
    | nil => exact absurd hn (natDigits_ne_nil n)
    | cons a t => rfl
  rw [parse_range, hne]
  simp only [Bool.false_eq_true, if_false]
  rw [splitOnDash_no_dash (natDigits n) (natDigits_no_dash n)]
  show Option.map (fun m => [m]) (pyInt (natDigits n)) = some [n]
  rw [pyInt_natDigits]
  rfl

theorem parse_range_natDigits_pair (a b : Nat) :
    parse_range (natDigits a ++ '-' :: natDigits b) =
      some (List.range' a (b + 1 - a)) := by
  have hne : (natDigits a ++ '-' :: natDigits b).isEmpty = false := by
    cases hn : natDigits a with
    | nil => exact absurd hn (natDigits_ne_nil a)
    | cons c t => rfl
  rw [parse_range, hne]
  simp only [Bool.false_eq_true, if_false]
  rw [splitOnDash_append (natDigits a) (natDigits b) (natDigits_no_dash a),
      splitOnDash_no_dash (natDigits b) (natDigits_no_dash b)]
  show (match pyInt (natDigits a), pyInt (natDigits b) with
        | some x, some y => some (List.range' x (y + 1 - x))
        | _, _ => none) = some (List.range' a (b + 1 - a))
  rw [pyInt_natDigits, pyInt_natDigits]

theorem range_str_multi {a b : Nat} {t : List Nat}
    (h : List.Chain' (· < ·) (a :: b :: t)) :
    _range_str (a :: b :: t) =
      natDigits a ++ '-' :: natDigits ((a :: b :: t).getLastD 0) := by
  have hmin : pyMin (a :: b :: t) = a := pyMin_sorted h
  have hmax : pyMax (a :: b :: t) = (a :: b :: t).getLastD 0 := pyMax_sorted h
  simp only [_range_str, List.isEmpty_cons, List.length_cons]
  rw [if_neg (by simp), if_pos (by omega), hmin, hmax]

theorem getLastD_range' : ∀ (n a d : Nat), (List.range' a (n + 1)).getLastD d = a + n := by
  intro n
  induction n with
  | zero => intro a d; rfl
  | succ n ih =>
    intro a d
    rw [List.range'_succ]
    show (List.range' (a + 1) (n + 1)).getLastD a = a + (n + 1)
    rw [ih (a + 1) a]
    omega

theorem chain'_succ_range' : ∀ (n a : Nat),
    List.Chain' (fun x y => y = x + 1) (List.range' a n) := by
  intro n
  induction n with
  | zero => intro a; simp
  | succ n ih =>
    intro a
    rw [List.range'_succ]
    cases n with
    | zero => simp
    | succ m =>
      rw [List.range'_succ]
      exact List.Chain'.cons rfl (by rw [← List.range'_succ]; exact ih (a + 1))

theorem chain_succ_eq_range' : ∀ (t : List Nat) (a : Nat),
    List.Chain' (fun x y => y = x + 1) (a :: t) → a :: t = List.range' a (t.length + 1) := by
  intro t
  induction t with
  | nil => intro a _; rfl
  | cons b t' ih =>
    intro a h
    have hab : b = a + 1 := (List.chain'_cons.mp h).1
    have := ih b (List.chain'_cons.mp h).2
    rw [List.range'_succ]
    show a :: (b :: t') = a :: List.range' (a + 1) (t'.length + 1)
    rw [this, hab]

theorem fillRange_contiguous (l : List Nat) :
    List.Chain' (fun x y => y = x + 1) (fillRange l) := by
  cases l with
  | nil => simp [fillRange]
  | cons a t => exact chain'_succ_range' _ _

theorem fillRange_of_contiguous (l : List Nat)
    (h : List.Chain' (fun x y => y = x + 1) l) : fillRange l = l := by
  cases l with
  | nil => rfl
  | cons a t =>
    have heq : a :: t = List.range' a (t.length + 1) := chain_succ_eq_range' t a h
    show List.range' ((a :: t).headD 0) ((a :: t).getLastD 0 + 1 - (a :: t).headD 0) = a :: t
    rw [show (a :: t).headD 0 = a from rfl,
        show (a :: t).getLastD 0 = a + t.length by rw [heq]; exact getLastD_range' t.length a 0]
    rw [show a + t.length + 1 - a = t.length + 1 by omega]
    exact heq.symm

theorem chain'_lt_sublist : ∀ (t : List Nat) (a : Nat), List.Chain' (· < ·) (a :: t) →
    List.Sublist (a :: t) (List.range' a ((a :: t).getLastD 0 + 1 - a)) := by
  intro t
  induction t with
  | nil =>
    intro a _
    show List.Sublist [a] (List.range' a (a + 1 - a))
    rw [show a + 1 - a = 1 by omega, List.range'_one]
  | cons b t' ih =>
    intro a h
    have hab : a < b := (List.chain'_cons.mp h).1
    have htl : List.Chain' (· < ·) (b :: t') := (List.chain'_cons.mp h).2
    have hIH : List.Sublist (b :: t')
        (List.range' b ((b :: t').getLastD 0 + 1 - b)) := ih b htl
    have hbL : b ≤ (b :: t').getLastD 0 := head_le_getLastD t' b htl
    have hL : (a :: b :: t').getLastD 0 = (b :: t').getLastD 0 := rfl
    rw [hL]
    set L := (b :: t').getLastD 0 with hLdef
    rw [show L + 1 - a = (L - a) + 1 by omega, List.range'_succ]
    have hsplit : List.range' (a + 1) (L - a) =
        List.range' (a + 1) (b - (a + 1)) ++ List.range' b (L + 1 - b) := by
      rw [show L - a = (L + 1 - b) + (b - (a + 1)) by omega,
          ← List.range'_append_1 (a + 1) (b - (a + 1)) (L + 1 - b),
          show a + 1 + (b - (a + 1)) = b by omega]
    rw [hsplit]
    exact List.Sublist.cons₂ a
      (hIH.trans (List.sublist_append_right _ _))

/-- C5: for every ascending distinct integer list the range encoder returns
`""` for `[]`, the decimal of `n` for `[n]`, and `"min-max"` built from the
first and last elements for longer lists; in particular
`encode([]) = ""`, `encode([7]) = "7"`, `encode([3,4,5]) = "3-5"` and
`encode([2,9]) = "2-9"` (interior gaps are hidden). -/
theorem claim_C5_range_encoder (l : List Nat) (h : List.Chain' (· < ·) l) :
    (l = [] → _range_str l = "".toList) ∧
    (∀ n, l = [n] → _range_str l = natDigits n) ∧
    (1 < l.length →
      _range_str l = natDigits (l.headD 0) ++ '-' :: natDigits (l.getLastD 0)) ∧
    _range_str [] = "".toList ∧ _range_str [7] = "7".toList ∧
    _range_str [3, 4, 5] = "3-5".toList ∧ _range_str [2, 9] = "2-9".toList := by
  refine ⟨?_, ?_, ?_, by decide, by decide, by decide, by decide⟩
  · intro he; subst he; rfl
  · intro n he; subst he; simp [_range_str]
  · intro hlen
    cases l with
    | nil => simp at hlen
    | cons a t =>
      cases t with
      | nil => simp at hlen
      | cons b t' => exact range_str_multi h

/-- Witness for C5 at the concrete input `[3,4,5]`. -/
theorem claim_C5_range_encoder_witness :
    List.Chain' (· < ·) [3, 4, 5] ∧ _range_str [3, 4, 5] = "3-5".toList :=
  ⟨by simp [List.chain'_cons], (claim_C5_range_encoder [3, 4, 5] (by simp [List.chain'_cons])).2.2.2.2.2.1⟩

/-- C10: on every ascending distinct list, parsing the encoded range
descriptor yields exactly the filled interval `[min l, …, max l]`; the input
is always a sublist of that interval, the round trip is exact precisely on
gap-free (contiguous) inputs, and on inputs with an interior gap the parsed
value is a strict superset of the input. -/
theorem claim_C10_parse_range_roundtrip (l : List Nat) (h : List.Chain' (· < ·) l) :
    parse_range (_range_str l) = some (fillRange l) ∧
    List.Sublist l (fillRange l) ∧
    (List.Chain' (fun a b => b = a + 1) l → fillRange l = l) ∧
    (¬ List.Chain' (fun a b => b = a + 1) l → fillRange l ≠ l) := by
  refine ⟨?_, ?_, fillRange_of_contiguous l, ?_⟩
  · cases l with
    | nil => decide
    | cons a t =>
      cases t with
      | nil =>
        show parse_range (_range_str [a]) = some (fillRange [a])
        rw [show _range_str [a] = natDigits a by simp [_range_str],
            parse_range_natDigits a]
        show some [a] = some (List.range' a (a + 1 - a))
        rw [show a + 1 - a = 1 by omega, List.range'_one]
      | cons b t' =>
        rw [range_str_multi h, parse_range_natDigits_pair]
        rfl
  · cases l with
    | nil => exact List.nil_sublist _
    | cons a t => exact chain'_lt_sublist t a h
  · intro hnc heq
    exact hnc (heq ▸ fillRange_contiguous l)

/-- Witness for C10 at the concrete gapped input `[2,9]`. -/
theorem claim_C10_parse_range_roundtrip_witness :
    List.Chain' (· < ·) [2, 9] ∧
      parse_range (_range_str [2, 9]) = some (fillRange [2, 9]) :=
  ⟨by simp [List.chain'_cons], (claim_C10_parse_range_roundtrip [2, 9] (by simp [List.chain'_cons])).1⟩

example : segResult scenarioA =
    [("123".toList, ("2-3".toList, "4-5".toList)),
     ("456".toList, ("6".toList, "7".toList))] := by decide

example : segDropped scenarioA = [1] := by decide

example : segResultL scenarioA =
    [("123".toList, ([2, 3], [4, 5])), ("456".toList, ([6], [7]))] := by decide

theorem flushL_current (st : SegStL) : (flushL st).current = st.current := by
  cases hc : st.current <;> simp [flushL, hc]

theorem flushL_dropped (st : SegStL) : (flushL st).dropped = st.dropped := by
  cases hc : st.current <;> simp [flushL, hc]

theorem flushL_extraction (st : SegStL) :
    (flushL st).extraction_pages = st.extraction_pages := by
  cases hc : st.current <;> simp [flushL, hc]

theorem flushL_attachment (st : SegStL) :
    (flushL st).attachment_pages = st.attachment_pages := by
  cases hc : st.current <;> simp [flushL, hc]

theorem encodeVals_dictSet (d : List (List Char × (List Nat × List Nat)))
    (k : List Char) (v : List Nat × List Nat) :
    encodeVals (dictSet d k v) =
      dictSet (encodeVals d) k (_range_str v.1, _range_str v.2) := by
  induction d with
  | nil => rfl
  | cons e rest ih =>
    obtain ⟨k', v'⟩ := e
    by_cases h : k' = k
    · simp [dictSet, encodeVals, h]
    · simp only [dictSet, h, if_false, encodeVals, List.map_cons] at ih ⊢
      rw [ih]

theorem flushEntry_absL (st : SegStL) :
    flushEntry (absL st) = encodeVals (flushL st).out := by
  cases hc : st.current with
  | none => simp [flushEntry, absL, flushL, hc]
  | some a => simp [flushEntry, absL, flushL, hc, encodeVals_dictSet]

theorem segStep_absL (st : SegStL) (idx : Nat) (C : List (List Char)) :
    segStep (absL st) idx C = absL (segStepL st idx C) := by
  have hcur : (absL st).current = st.current := rfl
  by_cases hA : ((!C.isEmpty) && !(setEqCur C st.current)) = true
  · simp only [segStep, segStepL, hcur, hA, if_true]
    show SegSt.mk (flushEntry (absL st)) (some (C.headD [])) [idx] [] (absL st).dropped = _
    rw [flushEntry_absL]
    simp [absL, flushL_dropped]
  · simp only [segStep, segStepL, hcur, hA, Bool.false_eq_true, if_false]
    by_cases hS : st.current.isSome
    · simp only [hS, if_true]
      by_cases hC : (!C.isEmpty) = true
      · simp [hC, absL]
      · simp only [hC, Bool.false_eq_true, if_false]
        simp [absL]
    · simp only [hS, Bool.false_eq_true, if_false]
      simp [absL]

theorem segRun_absL : ∀ (c : List (List (List Char))) (st : SegStL) (idx : Nat),
    segRun (absL st) idx c = absL (segRunL st idx c) := by
  intro c
  induction c with
  | nil => intro st idx; rfl
  | cons C rest ih =>
    intro st idx
    show segRun (segStep (absL st) idx C) (idx + 1) rest = _
    rw [segStep_absL]
    exact ih _ _

/-- The faithful result is the instrumented result, encoded valuewise. -/
theorem segResult_eq_encode (c : List (List (List Char))) :
    segResult c = encodeVals (segResultL c) := by
  show flushEntry (segRun initSt 1 c) = encodeVals (flushL (segRunL initL 1 c)).out
  rw [show initSt = absL initL from rfl, segRun_absL, flushEntry_absL]

/-- Dropped pages agree between the two folds. -/
theorem segDropped_eq (c : List (List (List Char))) :
    segDropped c = (segFinalL c).dropped := by
  show (segRun initSt 1 c).dropped = (flushL (segRunL initL 1 c)).dropped
  rw [show initSt = absL initL from rfl, segRun_absL, flushL_dropped]
  rfl

/-- C1: folding the candidate-set sequence
`[{}, {"123"}, {"123"}, {}, {}, {"456"}, {}]` over pages 1..7 produces
`{"123": {extraction: "2-3", attachments: "4-5"},
  "456": {extraction: "6", attachments: "7"}}`, with page 1 dropped by the
Rule-D diagnostic and contained in no account entry. -/
theorem claim_C1_scenarioA :
    segResult scenarioA =
      [("123".toList, ("2-3".toList, "4-5".toList)),
       ("456".toList, ("6".toList, "7".toList))] ∧
    segDropped scenarioA = [1] ∧
    1 ∉ pagesOf (segResultL scenarioA) := by decide

theorem mem_keys_dictSet {V : Type} :
    ∀ (d : List (List Char × V)) (k x : List Char) (v : V),
      x ∈ (dictSet d k v).map Prod.fst → x ∈ d.map Prod.fst ∨ x = k := by
  intro d
  induction d with
  | nil =>
    intro k x v h
    exact Or.inr (List.mem_singleton.mp h)
  | cons e rest ih =>
    intro k x v h
    obtain ⟨k', v'⟩ := e
    rw [show dictSet ((k', v') :: rest) k v =
          if k' = k then (k, v) :: rest else (k', v') :: dictSet rest k v from rfl] at h
    by_cases he : k' = k
    · rw [if_pos he, List.map_cons] at h
      rcases List.mem_cons.mp h with h | h
      · exact Or.inr h
      · exact Or.inl (by rw [List.map_cons]; exact List.mem_cons_of_mem _ h)
    · rw [if_neg he, List.map_cons] at h
      rcases List.mem_cons.mp h with h | h
      · exact Or.inl (by rw [List.map_cons]; exact List.mem_cons.mpr (Or.inl h))
      · rcases ih k x v h with h' | h'
        · exact Or.inl (by rw [List.map_cons]; exact List.mem_cons_of_mem _ h')
        · exact Or.inr h'

theorem nodup_keys_dictSet {V : Type} :
    ∀ (d : List (List Char × V)) (k : List Char) (v : V),
      (d.map Prod.fst).Nodup → ((dictSet d k v).map Prod.fst).Nodup := by
  intro d
  induction d with
  | nil =>
    intro k v _
    exact List.nodup_singleton k
  | cons e rest ih =>
    intro k v h
    obtain ⟨k', v'⟩ := e
    rw [List.map_cons, List.nodup_cons] at h
    show ((if k' = k then (k, v) :: rest
           else (k', v') :: dictSet rest k v).map Prod.fst).Nodup
    by_cases he : k' = k
    · rw [if_pos he, List.map_cons, List.nodup_cons]
      exact ⟨he ▸ h.1, h.2⟩
    · rw [if_neg he, List.map_cons, List.nodup_cons]
      refine ⟨fun hmem => ?_, ih k v h.2⟩
      rcases mem_keys_dictSet rest k k' v hmem with h' | h'
      · exact h.1 h'
      · exact he h'

theorem nodup_keys_flushEntry (st : SegSt)
    (h : (st.out.map Prod.fst).Nodup) : ((flushEntry st).map Prod.fst).Nodup := by
  cases hc : st.current with
  | none => simpa [flushEntry, hc] using h
  | some a =>
    simp only [flushEntry, hc]
    exact nodup_keys_dictSet st.out a _ h

theorem nodup_keys_segStep (st : SegSt) (idx : Nat) (C : List (List Char))
    (h : (st.out.map Prod.fst).Nodup) :
    ((segStep st idx C).out.map Prod.fst).Nodup := by
  unfold segStep
  split
  · exact nodup_keys_flushEntry st h
  · split
    · split
      · exact h
      · exact h
    · exact h

theorem nodup_keys_segRun :
    ∀ (c : List (List (List Char))) (st : SegSt) (idx : Nat),
      (st.out.map Prod.fst).Nodup → (((segRun st idx c).out).map Prod.fst).Nodup := by
  intro c
  induction c with
  | nil => intro st idx h; exact h
  | cons C rest ih =>
    intro st idx h
    exact ih _ _ (nodup_keys_segStep st idx C h)

/-- Counterexample to C3: on the input `[{"123"}, {"456"}, {"123"}]` the
resurfacing account number "123" does NOT get a second, distinct entry —
the final flush overwrites the earlier entry (its extraction range is now
"3", the original "1" is gone) and the result holds exactly one entry for
"123". -/
theorem claim_C3_cex :
    segResult resurfacing =
      [("123".toList, ("3".toList, "".toList)),
       ("456".toList, ("2".toList, "".toList))] ∧
    ((segResult resurfacing).map Prod.fst).count "123".toList = 1 := by decide

/-- C3 amended: a resurfacing account number never produces a second entry;
Python dict assignment overwrites the earlier entry's value in place, so the
result's keys are pairwise distinct for every input. -/
theorem claim_C3_amended (c : List (List (List Char))) :
    ((segResult c).map Prod.fst).Nodup :=
  nodup_keys_flushEntry _ (nodup_keys_segRun c initSt 1 (by simp [initSt]))

/-- Counterexample to C4: when Rule A fires on the candidate set
{"111","222"} presented in iteration order ["222","111"], `set.pop()` yields
"222", although "111" is also in the set and sorts strictly before "222" —
the code does not pick the smallest element. -/
theorem claim_C4_cex :
    mixedOrderB.length = 2 ∧
    "111".toList ∈ mixedOrderB ∧
    strLt ("111".toList) ("222".toList) = true ∧
    segResult [mixedOrderB] = [("222".toList, ("1".toList, "".toList))] := by decide

/-- C4 amended: whenever Rule A fires, the new `current_account` is the first
element of the candidate set's iteration order (`set.pop()`), which is *an*
element of the set but not necessarily its smallest. -/
theorem claim_C4_amended (st : SegSt) (idx : Nat) (C : List (List Char))
    (h : ((!C.isEmpty) && !(setEqCur C st.current)) = true) :
    (segStep st idx C).current = some (C.headD []) ∧ C.headD [] ∈ C := by
  constructor
  · simp [segStep, h]
  · cases C with
    | nil => simp at h
    | cons x t => exact List.mem_cons_self x t

/-- Witness for the C4 amendment at a concrete Rule-A firing. -/
theorem claim_C4_amended_witness :
    (segStep initSt 1 ["555666".toList]).current = some ("555666".toList) :=
  (claim_C4_amended initSt 1 ["555666".toList] (by decide)).1

/-- Counterexample to C9: the two lists are iteration orders of the same
candidate set {"111","222"}, yet the fold keyed the single account "111" in
one run and "222" in the other — the result is not a function of the
candidate sets alone, so two runs of the program need not agree. -/
theorem claim_C9_cex :
    (∀ x ∈ mixedOrderA, x ∈ mixedOrderB) ∧
    (∀ x ∈ mixedOrderB, x ∈ mixedOrderA) ∧
    segResult [mixedOrderA] ≠ segResult [mixedOrderB] := by decide

/-- Two lists of length at most one with the same members are equal. -/
theorem small_set_eq (a b : List (List Char)) (ha : a.length ≤ 1) (hb : b.length ≤ 1)
    (h1 : ∀ x ∈ a, x ∈ b) (h2 : ∀ x ∈ b, x ∈ a) : a = b := by
  cases a with
  | nil =>
    cases b with
    | nil => rfl
    | cons y t => exact absurd (h2 y (List.mem_cons_self y t)) (List.not_mem_nil y)
  | cons x s =>
    cases b with
    | nil => exact absurd (h1 x (List.mem_cons_self x s)) (List.not_mem_nil x)
    | cons y t =>
      have hs : s = [] := by
        cases s with
        | nil => rfl
        | cons _ _ => simp at ha
      have ht : t = [] := by
        cases t with
        | nil => rfl
        | cons _ _ => simp at hb
      subst hs
      subst ht
      have hxy : x = y := by
        have := h1 x (List.mem_cons_self x [])
        simpa using this
      rw [hxy]

/-- C9 amended: the fold is a deterministic function of the per-page
candidate lists (sets in iteration order); in particular, when every page's
candidate set has at most one element, the result depends only on the sets
and re-running the fold reproduces it exactly. -/
theorem claim_C9_amended (c1 c2 : List (List (List Char)))
    (h : List.Forall₂
      (fun a b => a.length ≤ 1 ∧ b.length ≤ 1 ∧
        (∀ x ∈ a, x ∈ b) ∧ (∀ x ∈ b, x ∈ a)) c1 c2) :
    segResult c1 = segResult c2 ∧ segDropped c1 = segDropped c2 := by
  have heq : c1 = c2 := by
    induction h with
    | nil => rfl
    | cons hab htail ih =>
      obtain ⟨ha, hb, h1, h2⟩ := hab
      rw [small_set_eq _ _ ha hb h1 h2, ih]
  subst heq
  exact ⟨rfl, rfl⟩

theorem pagesOf_append (l1 l2 : List (List Char × (List Nat × List Nat))) :
    pagesOf (l1 ++ l2) = pagesOf l1 ++ pagesOf l2 := by
  simp [pagesOf]

theorem segStepL_good (st : SegStL) (idx : Nat) (C : List (List Char))
    (hg : goodSt st) : goodSt (segStepL st idx C) := by
  unfold segStepL
  by_cases hA : ((!C.isEmpty) && !(setEqCur C st.current)) = true
  · rw [if_pos hA]
    intro h
    simp at h
  · rw [if_neg hA]
    by_cases hS : st.current.isSome = true
    · rw [if_pos hS]
      by_cases hC : (!C.isEmpty) = true
      · rw [if_pos hC]
        intro h
        simp only at h
        rw [h] at hS
        simp at hS
      · rw [if_neg hC]
        intro h
        simp only at h
        rw [h] at hS
        simp at hS
    · rw [if_neg hS]
      intro h
      simp only at h
      exact hg h

theorem segStepL_perm (st : SegStL) (idx : Nat) (C : List (List Char))
    (hg : goodSt st) :
    (statePages (segStepL st idx C)).Perm (statePages st ++ [idx]) := by
  unfold segStepL
  by_cases hA : ((!C.isEmpty) && !(setEqCur C st.current)) = true
  · rw [if_pos hA]
    cases hc : st.current with
    | none =>
      obtain ⟨hE, hA'⟩ := hg hc
      rw [List.perm_iff_count]
      intro a
      simp [statePages, flushL, hc, pagesOf, hE, hA',
        List.count_append, List.count_cons]
      try omega
    | some a0 =>
      rw [List.perm_iff_count]
      intro a
      simp [statePages, flushL, hc, pagesOf, List.count_append, List.count_cons]
      try omega
  · rw [if_neg hA]
    by_cases hS : st.current.isSome = true
    · rw [if_pos hS]
      by_cases hC : (!C.isEmpty) = true
      · rw [if_pos hC]
        rw [List.perm_iff_count]
        intro a
        simp [statePages, List.count_append, List.count_cons]
        try omega
      · rw [if_neg hC]
        rw [List.perm_iff_count]
        intro a
        simp [statePages, List.count_append, List.count_cons]
        try omega
    · rw [if_neg hS]
      rw [List.perm_iff_count]
      intro a
      simp [statePages, List.count_append, List.count_cons]
      try omega

theorem segRunL_perm_good :
    ∀ (c : List (List (List Char))) (st : SegStL) (idx : Nat), goodSt st →
      (statePages (segRunL st idx c)).Perm
        (statePages st ++ List.range' idx c.length) ∧
      goodSt (segRunL st idx c) := by
  intro c
  induction c with
  | nil =>
    intro st idx hg
    refine ⟨?_, hg⟩
    show (statePages st).Perm (statePages st ++ List.range' idx 0)
    rw [List.range'_zero, List.append_nil]
  | cons C rest ih =>
    intro st idx hg
    have hstep := segStepL_perm st idx C hg
    have hgood := segStepL_good st idx C hg
    obtain ⟨hIH, hg'⟩ := ih (segStepL st idx C) (idx + 1) hgood
    refine ⟨?_, hg'⟩
    show (statePages (segRunL (segStepL st idx C) (idx + 1) rest)).Perm _
    refine hIH.trans ((hstep.append_right _).trans ?_)
    rw [List.append_assoc,
      show [idx] ++ List.range' (idx + 1) rest.length =
        List.range' idx (rest.length + 1) by rw [List.range'_succ]; rfl]
    exact List.Perm.refl _

theorem flushL_flushes_pages (st : SegStL) (hg : goodSt st) :
    (pagesOf (flushL st).flushes ++ (flushL st).dropped).Perm (statePages st) := by
  cases hc : st.current with
  | none =>
    obtain ⟨hE, hA⟩ := hg hc
    rw [List.perm_iff_count]
    intro a
    simp [flushL, hc, statePages, hE, hA, List.count_append, List.count_cons]
    try omega
  | some a0 =>
    rw [List.perm_iff_count]
    intro a
    simp [flushL, hc, statePages, pagesOf, List.count_append, List.count_cons]
    try omega

theorem applyFlushes_append (evs : List (List Char × (List Nat × List Nat)))
    (e : List Char × (List Nat × List Nat)) :
    applyFlushes (evs ++ [e]) = dictSet (applyFlushes evs) e.1 e.2 := by
  simp [applyFlushes, List.foldl_append]

theorem flushL_outIsApply (st : SegStL) (h : st.out = applyFlushes st.flushes) :
    (flushL st).out = applyFlushes (flushL st).flushes := by
  cases hc : st.current with
  | none => simpa [flushL, hc] using h
  | some a0 => simp [flushL, hc, applyFlushes_append, h]

theorem segStepL_outIsApply (st : SegStL) (idx : Nat) (C : List (List Char))
    (h : st.out = applyFlushes st.flushes) :
    (segStepL st idx C).out = applyFlushes (segStepL st idx C).flushes := by
  unfold segStepL
  by_cases hA : ((!C.isEmpty) && !(setEqCur C st.current)) = true
  · rw [if_pos hA]
    simpa using flushL_outIsApply st h
  · rw [if_neg hA]
    by_cases hS : st.current.isSome = true
    · rw [if_pos hS]
      by_cases hC : (!C.isEmpty) = true
      · rw [if_pos hC]; simpa using h
      · rw [if_neg hC]; simpa using h
    · rw [if_neg hS]; simpa using h

theorem segRunL_outIsApply :
    ∀ (c : List (List (List Char))) (st : SegStL) (idx : Nat),
      st.out = applyFlushes st.flushes →
      (segRunL st idx c).out = applyFlushes (segRunL st idx c).flushes := by
  intro c
  induction c with
  | nil => intro st idx h; exact h
  | cons C rest ih =>
    intro st idx h
    exact ih _ _ (segStepL_outIsApply st idx C h)

theorem segFinalL_outIsApply (c : List (List (List Char))) :
    (segFinalL c).out = applyFlushes (segFinalL c).flushes :=
  flushL_outIsApply _ (segRunL_outIsApply c initL 1 rfl)

theorem dictSet_of_fresh {V : Type} :
    ∀ (d : List (List Char × V)) (k : List Char) (v : V),
      (∀ e ∈ d, e.1 ≠ k) → dictSet d k v = d ++ [(k, v)] := by
  intro d
  induction d with
  | nil => intro k v _; rfl
  | cons e rest ih =>
    intro k v h
    obtain ⟨k', v'⟩ := e
    have hk : k' ≠ k := h (k', v') (List.mem_cons_self _ _)
    show (if k' = k then (k, v) :: rest else (k', v') :: dictSet rest k v) = _
    rw [if_neg hk, ih k v (fun e he => h e (List.mem_cons_of_mem _ he))]
    rfl

theorem applyFlushes_of_nodup :
    ∀ (evs : List (List Char × (List Nat × List Nat))),
      (evs.map Prod.fst).Nodup → applyFlushes evs = evs := by
  intro evs
  induction evs using List.reverseRecOn with
  | nil => intro _; rfl
  | append_singleton evs e ih =>
    intro h
    rw [List.map_append] at h
    have h1 := h.of_append_left
    have hdisj := List.disjoint_of_nodup_append h
    rw [applyFlushes_append, ih h1, dictSet_of_fresh evs e.1 e.2 ?_]
    intro x hx heq
    exact hdisj (List.mem_map_of_mem Prod.fst hx) (by simp [heq])

/-- Counterexample to C2: on `[{"123"}, {"456"}, {"123"}]` page 1 appears in
no account entry of the final result (the second flush of "123" overwrote
the entry holding it) and it is not among the dropped pages either — it is
silently lost, so the pages of the result plus the dropped pages are not a
permutation of the input pages 1..3. -/
theorem claim_C2_partition_cex :
    segResultL resurfacing = [("123".toList, ([3], [])), ("456".toList, ([2], []))] ∧
    segDropped resurfacing = [] ∧
    1 ∉ pagesOf (segResultL resurfacing) ∧
    ¬ (pagesOf (segResultL resurfacing) ++ segDropped resurfacing).Perm
        (List.range' 1 3) := by decide

/-- C2 amended: provided no account number is flushed twice (the flush
journal's keys are pairwise distinct — in particular whenever no account
number resurfaces after being flushed), every input page index appears
exactly once in the final result's page lists or among the dropped pages. -/
theorem claim_C2_partition_amended (c : List (List (List Char)))
    (h : ((segFinalL c).flushes.map Prod.fst).Nodup) :
    (pagesOf (segResultL c) ++ segDropped c).Perm (List.range' 1 c.length) := by
  have h1 : segResultL c = (segFinalL c).flushes := by
    show (segFinalL c).out = _
    rw [segFinalL_outIsApply, applyFlushes_of_nodup _ h]
  rw [h1, segDropped_eq]
  have hrun := segRunL_perm_good c initL 1 (fun _ => ⟨rfl, rfl⟩)
  have hflush := flushL_flushes_pages (segRunL initL 1 c) hrun.2
  have := hflush.trans hrun.1
  simpa [statePages, initL, pagesOf] using this

/-- Witness for the C2 amendment on a concrete two-page input with one
dropped page. -/
theorem claim_C2_partition_amended_witness :
    (pagesOf (segResultL [[], ["123".toList]]) ++
      segDropped [[], ["123".toList]]).Perm (List.range' 1 2) :=
  claim_C2_partition_amended [[], ["123".toList]] (by decide)

/-- Counterexample to C8: on Scenario C (extraction raises on page 4 of 6)
the caller receives only the propagated exception for page 4 — not the
entry flushed through page 3, and no unresolved-tail marker. -/
theorem claim_C8_cex : segResultExc scenarioC = Except.error 4 := by rfl

theorem segRunExc_error :
    ∀ (pre : List (Option (List (List Char))))
      (post : List (Option (List (List Char)))) (st : SegSt) (idx : Nat),
      (∀ o ∈ pre, o.isSome = true) →
      segRunExc st idx (pre ++ none :: post) = Except.error (idx + pre.length) := by
  intro pre
  induction pre with
  | nil =>
    intro post st idx _
    simp [segRunExc]
  | cons o pre' ih =>
    intro post st idx h
    cases o with
    | none =>
      have := h none (List.mem_cons_self _ _)
      simp at this
    | some C =>
      show segRunExc (segStep st idx C) (idx + 1) (pre' ++ none :: post) =
        Except.error (idx + (pre'.length + 1))
      rw [ih post _ (idx + 1) (fun o ho => h o (List.mem_cons_of_mem _ ho))]
      congr 1
      omega

/-- C8 amended: when signal extraction raises on page `k` (the first failing
page), the exception propagates out of the fold — the caller receives only
the error naming page `k`; the entries flushed before page `k` are lost and
no unresolved-tail marker is produced. -/
theorem claim_C8_amended (pre post : List (Option (List (List Char))))
    (h : ∀ o ∈ pre, o.isSome = true) :
    segResultExc (pre ++ none :: post) = Except.error (1 + pre.length) := by
  unfold segResultExc
  rw [segRunExc_error pre post initSt 1 h]
  rfl

/-- Witness for the C8 amendment: failure on page 2 of 3. -/
theorem claim_C8_amended_witness :
    segResultExc ([some ["999888777".toList]] ++ none :: [some []]) =
      Except.error (1 + 1) :=
  claim_C8_amended [some ["999888777".toList]] [some []] (by decide)

/-- Witness for the C9 amendment on a concrete singleton-candidate input. -/
theorem claim_C9_amended_witness :
    segResult [[], ["123456".toList]] = segResult [[], ["123456".toList]] :=
  (claim_C9_amended [[], ["123456".toList]] [[], ["123456".toList]]
    (List.Forall₂.cons (by refine ⟨by decide, by decide, ?_, ?_⟩ <;> decide)
      (List.Forall₂.cons (by refine ⟨by decide, by decide, ?_, ?_⟩ <;> decide)
        List.Forall₂.nil))).1

/-- C6, code bug: the key "Account Number :" normalises to "accountnumber",
which contains the variant "accountnumber" as a substring, and the value
"12345678" has 8 digits (within 6..20), so per the claim the digit string
must be added — but the code's `ACCOUNT_LABELS` all contain a space, which
`_normalise_key` removes from every key, so the substring test never fires
and the form-based step adds nothing. -/
theorem claim_C6_forms_label_mismatch :
    _normalise_key ("Account Number :".toList) = "accountnumber".toList ∧
    containsSub ("accountnumber".toList) ("accountnumber".toList) = true ∧
    (stripNonDigits ("12345678".toList)).length = 8 ∧
    find_account_numbers_forms
      [(_normalise_key ("Account Number :".toList), "12345678".toList)] = [] := by
  decide

theorem isMarkerAt_cons (l : List Char) (ls : List (List Char)) (i : Nat) :
    isMarkerAt (l :: ls) (i + 1) ↔ isMarkerAt ls i := by
  unfold isMarkerAt
  rw [List.getD_cons_succ, List.length_cons]
  constructor
  · rintro ⟨h1, h2⟩; exact ⟨by omega, h2⟩
  · rintro ⟨h1, h2⟩; exact ⟨by omega, h2⟩

theorem findAfterMarker_first :
    ∀ (lines : List (List Char)) (j : Nat), isMarkerAt lines j →
      (∀ i, i < j → ¬ isMarkerAt lines i) →
      findAfterMarker lines = some (pyStrip (lines.getD (j + 1) [])) := by
  intro lines
  induction lines with
  | nil =>
    intro j hj _
    exact absurd hj.1 (by simp)
  | cons l rest ih =>
    intro j hj hfirst
    cases rest with
    | nil =>
      exact absurd hj.1 (by simp)
    | cons nxt rest' =>
      cases j with
      | zero =>
        have h2 : pyRstripColon l = markerLine := hj.2
        show (if pyRstripColon l = markerLine then some (pyStrip nxt)
              else findAfterMarker (nxt :: rest')) = _
        rw [if_pos h2]
        rfl
      | succ j' =>
        have h0 : ¬ isMarkerAt (l :: nxt :: rest') 0 := hfirst 0 (Nat.succ_pos j')
        have hl : pyRstripColon l ≠ markerLine := by
          intro heq
          exact h0 ⟨by simp, heq⟩
        show (if pyRstripColon l = markerLine then some (pyStrip nxt)
              else findAfterMarker (nxt :: rest')) = _
        rw [if_neg hl]
        have hj' : isMarkerAt (nxt :: rest') j' := (isMarkerAt_cons l _ j').mp hj
        have hfirst' : ∀ i, i < j' → ¬ isMarkerAt (nxt :: rest') i :=
          fun i hi hm => hfirst (i + 1) (by omega) ((isMarkerAt_cons l _ i).mpr hm)
        exact ih j' hj' hfirst'

theorem findAfterMarker_none :
    ∀ (lines : List (List Char)), (∀ i, ¬ isMarkerAt lines i) →
      findAfterMarker lines = none := by
  intro lines
  induction lines with
  | nil => intro _; rfl
  | cons l rest ih =>
    intro h
    cases rest with
    | nil => rfl
    | cons nxt rest' =>
      have hl : pyRstripColon l ≠ markerLine := by
        intro heq
        exact h 0 ⟨by simp, heq⟩
      show (if pyRstripColon l = markerLine then some (pyStrip nxt)
            else findAfterMarker (nxt :: rest')) = none
      rw [if_neg hl]
      exact ih (fun i hm => h (i + 1) ((isMarkerAt_cons l _ i).mpr hm))

/-- C7: for every page text, if some (first) line — after per-line
whitespace stripping and removal of trailing colons — equals exactly
"ACCOUNT NUMBER" and is followed by another line, the extractor yields that
following line's stripped text as the single candidate; a page with no such
marker line yields no candidate. -/
theorem claim_C7_fixed_marker (text : List Char) :
    (∀ j, isMarkerAt (markedLines text) j →
      (∀ i, i < j → ¬ isMarkerAt (markedLines text) i) →
      extract_account_number text =
        some (pyStrip ((markedLines text).getD (j + 1) []))) ∧
    ((∀ i, ¬ isMarkerAt (markedLines text) i) →
      extract_account_number text = none) :=
  ⟨fun j hj hfirst => findAfterMarker_first (markedLines text) j hj hfirst,
   fun h => findAfterMarker_none (markedLines text) h⟩

/-- Witness for C7 at a concrete page: marker on line 1 (0-based), value
taken from line 2. -/
theorem claim_C7_fixed_marker_witness :
    extract_account_number markerSample = some ("210863254".toList) := by
  have h := (claim_C7_fixed_marker markerSample).1 1 (by decide) (by decide)
  exact h.trans (by decide)
